import Mathlib

/-!
Verification of the falcon scraping/persistence core (`src/falcon`).

Shallow embedding conventions:
* Python strings are modelled as lists of characters (`Str := List Char`);
  string literals of the source appear as explicit character lists.
* The Redis string keyspace used by the identity-resolution code
  (`RedisUser` in `Con.py`) is modelled as the list of keys present
  (`List Str`): the stored values are never read by the code under study
  (`set_parent` stores `tel`, nothing ever calls `get`), so keys suffice.
  `KEYS pattern` is glob filtering over that list; Redis returns matches in
  an unspecified order, the model returns them in list order.
* The counters/hashes used by `Redis.push` are modelled as association
  lists inside `RedisState`.
* Python `set(...)` iterates in an unspecified order; it is modelled as
  first-occurrence deduplication (`pySet`).  Theorems relying on it only
  use inputs where at most one element survives, so the order never matters.
* `re.findall` for the fixed `phone` pattern of `utils.py` is embedded as a
  backtracking matcher specialised to that pattern (lazy `\+{0,1}?`, greedy
  `\d{0,3}`, lazy separators, capture group `(\d{2} .. \d{3} .. \d{2} .. \d{2})`);
  `findallGo` carries fuel `length + 1`, enough for the scan that advances
  at least one character per step, to keep the recursion structural.
-/

set_option maxHeartbeats 1000000

abbrev Str := List Char

/-- Python `str.split(sep)` for a one-character separator: always returns a
non-empty list, keeps empty pieces (`"".split(";") == [""]`, `"a;".split(";") == ["a",""]`). -/
def splitOnC (sep : Char) : Str → List Str
  | [] => [[]]
  | c :: cs =>
    if c = sep then [] :: splitOnC sep cs
    else
      match splitOnC sep cs with
      | [] => [[c]]
      | s :: ss => (c :: s) :: ss

/-- Python `sep.join(pieces)`: empty pieces are kept, so an empty piece
produces adjacent separators. -/
def joinSep (sep : Str) : List Str → Str
  | [] => []
  | [x] => x
  | x :: y :: ys => x ++ sep ++ joinSep sep (y :: ys)

/-- Last element of a list with a default (`parents.pop()` reads the last element). -/
def lastD {α : Type} (d : α) : List α → α
  | [] => d
  | [x] => x
  | _ :: y :: t => lastD d (y :: t)

/-- Redis glob `pre ++ "*" ++ suf` (the one `*` may match any characters,
including `:`): the key decomposes as `pre ++ m ++ suf`.  Decidable via
take/drop; `globStar_iff` below proves the decomposition reading. -/
def globStar (pre suf key : Str) : Bool :=
  decide (pre.length + suf.length ≤ key.length) &&
  decide (key.take pre.length = pre) &&
  decide (key.drop (key.length - suf.length) = suf)

/-- The literal segment `":Ids:"` of the identity keys. -/
def idsSeg : Str := [':', 'I', 'd', 's', ':']

/-- `RedisUser.parent_tel_pattern`: the key `f'{root}:Ids:{parent}:{tel}'`. -/
def parent_tel_pattern (root tel parent : Str) : Str :=
  root ++ idsSeg ++ parent ++ ':' :: tel

/-- `engine.keys(pattern=f'{root}:Ids:*:{tel}')` over the modelled keyspace. -/
def keysIds (root : Str) (s : List Str) (tel : Str) : List Str :=
  s.filter (fun k => globStar (root ++ idsSeg) (':' :: tel) k)

/-- Redis `SET key v`: the key becomes present (value unmodelled, never read). -/
def rset (s : List Str) (k : Str) : List Str :=
  if k ∈ s then s else s ++ [k]

/-- Redis `DEL key`. -/
def rdel (s : List Str) (k : Str) : List Str :=
  s.filter (fun x => decide (x ≠ k))

/-- `RedisUser.set_parent`: create the pointer key, return (state, pattern). -/
def set_parent (root : Str) (s : List Str) (tel parent : Str) : List Str × Str :=
  let p := parent_tel_pattern root tel parent
  (rset s p, p)

/-- `RedisUser.get_tel_parent`: glob for the child's pointer; if none, make
the phone its own parent and return that single pattern. -/
def get_tel_parent (root : Str) (s : List Str) (tel : Str) : List Str × List Str :=
  let old := keysIds root s tel
  if old.isEmpty then
    let sp := set_parent root s tel tel
    (sp.1, [sp.2])
  else (s, old)

/-- `RedisUser.update_tel_parent`: delete `old_parent[0]`, install the new pointer. -/
def update_tel_parent (root : Str) (s : List Str) (tel : Str) (old_parent : List Str)
    (parent : Str) : List Str × Str :=
  set_parent root (rdel s (old_parent.headD [])) tel parent

/-- The comprehension `[self.get_tel_parent(tel) for tel in tels]`, threading
the store state left to right. -/
def tel_parents (root : Str) : List Str → List Str → List Str × List (List Str)
  | s, [] => (s, [])
  | s, t :: ts =>
    let r := get_tel_parent root s t
    let rest := tel_parents root r.1 ts
    (rest.1, r.2 :: rest.2)

/-- The merge loop `for other, old_parent in zip(tels, parents): update_tel_parent ...`. -/
def merge_parents (root canon : Str) : List Str → List (Str × List Str) → List Str
  | s, [] => s
  | s, (t, old) :: rest =>
    merge_parents root canon (update_tel_parent root s t old canon).1 rest

/-- The sentinel `'Unknown'`. -/
def unknownStr : Str := ['U', 'n', 'k', 'n', 'o', 'w', 'n']

/-- Body of `RedisUser.tel_id` after `tels = tel.split(';')`: if the first
entry is non-empty, look up every entry's parent, take the parent segment
(`split(':')[2]`) of the last entry's pattern as canonical, and re-parent all
earlier entries onto it; otherwise return `'Unknown'` unchanged. -/
def tel_id_tels (root : Str) (s : List Str) (tels : List Str) : List Str × Str :=
  if tels.headD [] = [] then (s, unknownStr)
  else
    let gp := tel_parents root s tels
    let canon := (splitOnC ':' ((lastD [] gp.2).headD [])).getD 2 []
    (merge_parents root canon gp.1 (tels.zip gp.2.dropLast), canon)

/-- `RedisUser.tel_id`. -/
def tel_id (root : Str) (s : List Str) (tel : Str) : List Str × Str :=
  tel_id_tels root s (splitOnC ';' tel)

/-- Structural invariant of the identity keyspace: every key is a pointer
`root:Ids:<parent>:<child>` with colon-free parent and child segments. -/
def Structured (root : Str) (s : List Str) : Prop :=
  ∀ k ∈ s, ∃ p c : Str, ':' ∉ p ∧ ':' ∉ c ∧ k = parent_tel_pattern root c p

/-- At most one active parent pointer per (colon-free) child. -/
def AtMostOne (root : Str) (s : List Str) : Prop :=
  ∀ t : Str, ':' ∉ t → (keysIds root s t).length ≤ 1

/-- Decimal digit character (`str(i)` digits). -/
def digChar (d : Nat) : Char := Char.ofNat (48 + d)

/-- Python `str(n)` for a natural number. -/
def natStr (n : Nat) : Str :=
  if n = 0 then ['0'] else ((Nat.digits 10 n).map digChar).reverse

/-- Insert/overwrite one binding of an association list, Python-`dict` style:
first occurrence keeps its position, the value is overwritten; a fresh key is
appended. -/
def assocIns {V : Type} (acc : List (Str × V)) (kv : Str × V) : List (Str × V) :=
  if acc.any (fun p => decide (p.1 = kv.1)) then
    acc.map (fun p => if p.1 = kv.1 then (p.1, kv.2) else p)
  else acc ++ [kv]

/-- Python `dict(items)`: later duplicate keys overwrite earlier values. -/
def dictOf {V : Type} (items : List (Str × V)) : List (Str × V) :=
  items.foldl assocIns []

/-- State of the modelled Redis engine used by `Redis.push`. -/
structure RedisState where
  counters : List (Str × Nat)
  hashes : List (Str × List (Str × Str))

/-- Counter lookup (missing counter reads as 0, as Redis `INCR` assumes). -/
def ctrGet (cs : List (Str × Nat)) (name : Str) : Nat :=
  ((cs.find? (fun p => decide (p.1 = name))).map (fun p => p.2)).getD 0

/-- Redis `INCR name`: atomically add one, return the new value. -/
def incr (st : RedisState) (name : Str) : RedisState × Nat :=
  let v := ctrGet st.counters name + 1
  ({ st with counters := assocIns st.counters (name, v) }, v)

/-- Hash lookup (`HGETALL`-view of the modelled hash at a key). -/
def hget (hs : List (Str × List (Str × Str))) (k : Str) : Option (List (Str × Str)) :=
  (hs.find? (fun p => decide (p.1 = k))).map (fun p => p.2)

/-- Redis `HSET key mapping`: merge the mapping's fields into the hash at the key. -/
def hset (hs : List (Str × List (Str × Str))) (k : Str) (m : List (Str × Str)) :
    List (Str × List (Str × Str)) :=
  if hs.any (fun p => decide (p.1 = k)) then
    hs.map (fun p => if p.1 = k then (p.1, m.foldl assocIns p.2) else p)
  else hs ++ [(k, m)]

/-- The global counter name `'items'` used by `Redis.incr`. -/
def itemsName : Str := ['i', 't', 'e', 'm', 's']

/-- `Redis.pattern`: colon-join of the non-empty segments
(`':'.join(folder for folder in [root, domain, category, partition] if folder)`). -/
def pattern (root domain category partition : Str) : Str :=
  joinSep [':'] (([root, domain, category, partition]).filter (fun f => decide (f ≠ [])))

/-- `Redis.id`: increment the single global `'items'` counter and form
`f'{pattern}:{incr}'`. -/
def redisId (st : RedisState) (root domain category partition : Str) : RedisState × Str :=
  let r := incr st itemsName
  (r.1, pattern root domain category partition ++ ':' :: natStr r.2)

/-- `Redis.push`: write the flattened record to the hash at `self.id`. -/
def redisPush (st : RedisState) (root domain category partition : Str)
    (flat : List (Str × Str)) : RedisState :=
  let r := redisId st root domain category partition
  { r.1 with hashes := hset r.1.hashes r.2 flat }

/-- `RedisUser.users_pattern`: plain colon-join of all seven segments,
with no filtering of empty ones. -/
def users_pattern (root tel domain category : Str) : Str :=
  joinSep [':']
    [root, ['U', 's', 'e', 'r', 's'], tel, ['D', 'o', 'm', 'a', 'i', 'n', 's'], domain,
      ['C', 'a', 't', 'e', 'g', 'o', 'r', 'i', 'e', 's'], category]

/-- Whitespace as Python's ASCII `\s` / `str.strip` see it. -/
def isPySpace (c : Char) : Bool :=
  c = ' ' || c = '\t' || c = '\n' || c = '\r' || c = '\x0b' || c = '\x0c'

/-- `value.replace('\n', ' ')`. -/
def replaceNl (l : Str) : Str :=
  l.map (fun c => if c = '\n' then ' ' else c)

mutual
/-- `re.sub(r'\s+', ' ', l)`: every maximal whitespace run becomes one space. -/
def collapseWS : Str → Str
  | [] => []
  | c :: t => if isPySpace c then ' ' :: collapseAfterWS t else c :: collapseWS t

/-- Continuation of `collapseWS` inside a whitespace run (the run's space has
already been emitted). -/
def collapseAfterWS : Str → Str
  | [] => []
  | c :: t => if isPySpace c then collapseAfterWS t else c :: collapseWS t
end

/-- Python `str.strip()`: drop whitespace from both ends. -/
def stripPy (l : Str) : Str :=
  ((l.dropWhile isPySpace).reverse.dropWhile isPySpace).reverse

/-- The string path of `utils.ravel`: replace newlines, collapse whitespace
runs, strip the ends. -/
def ravelStr (s : Str) : Str :=
  stripPy (collapseWS (replaceNl s))

/-- First-occurrence deduplication, modelling Python `set(...)` up to its
unspecified iteration order. -/
def dedupGo : List Str → List Str → List Str
  | _, [] => []
  | seen, x :: xs => if x ∈ seen then dedupGo seen xs else x :: dedupGo (x :: seen) xs

/-- Python `set(l)` as a list (see `dedupGo`). -/
def pySet (l : List Str) : List Str := dedupGo [] l

/-- `utils.ravel` on a list/set argument: `sep.join(set(value))`, then the
string path. -/
def ravelList (sep : Str) (l : List Str) : Str :=
  ravelStr (joinSep sep (pySet l))

/-- `\d` of the phone pattern (ASCII digits). -/
def isDigitC (c : Char) : Bool := c.isDigit

/-- The separator class `[\s\-]` of the phone pattern. -/
def isSepC (c : Char) : Bool := isPySpace c || c = '-'

/-- Consume exactly `n` digits. -/
def dExact : Nat → Str → Option Str
  | 0, s => some s
  | _ + 1, [] => none
  | n + 1, c :: s => if isDigitC c then dExact n s else none

/-- Lazy `[\s\-]{0,1}?`: try zero separators first, then one. -/
def sepLazy {α : Type} (k : Str → Option α) (s : Str) : Option α :=
  k s <|>
    match s with
    | c :: s' => if isSepC c then k s' else none
    | [] => none

/-- Lazy `\+{0,1}?`: try without the plus first, then with it. -/
def plusLazy {α : Type} (k : Str → Option α) (s : Str) : Option α :=
  k s <|>
    match s with
    | c :: s' => if c = '+' then k s' else none
    | [] => none

/-- Greedy `\d{0,3}`: try three digits first, backing off to none. -/
def d03Greedy {α : Type} (k : Str → Option α) (s : Str) : Option α :=
  ((dExact 3 s).bind k) <|> ((dExact 2 s).bind k) <|> ((dExact 1 s).bind k) <|> k s

/-- The capture group `(\d{2}[\s\-]{0,1}?\d{3}[\s\-]{0,1}?\d{2}[\s\-]{0,1}?\d{2})`:
returns the rest of the input after the group. -/
def groupCore (s : Str) : Option Str :=
  (dExact 2 s).bind
    (sepLazy fun s2 =>
      (dExact 3 s2).bind
        (sepLazy fun s4 =>
          (dExact 2 s4).bind
            (sepLazy fun s6 => dExact 2 s6)))

/-- Try the whole `phone` pattern at this position; on success return the
captured group (what `re.findall` collects) and the rest after the match. -/
def matchAtPos (s : Str) : Option (Str × Str) :=
  plusLazy
    (fun s1 =>
      d03Greedy
        (sepLazy fun s3 =>
          (groupCore s3).map fun rest => (s3.take (s3.length - rest.length), rest))
        s1)
    s

/-- Scan for non-overlapping matches left to right (`re.findall`); on failure
advance one position.  Fuel `length + 1` suffices: every step consumes input. -/
def findallGo : Nat → Str → List Str
  | 0, _ => []
  | fuel + 1, s =>
    match matchAtPos s with
    | some (g, rest) => g :: findallGo fuel rest
    | none =>
      match s with
      | [] => []
      | _ :: t => findallGo fuel t

/-- `re.findall(phone, s)` (group-1 captures). -/
def findallPhone (s : Str) : List Str := findallGo (s.length + 1) s

/-- `re.sub(r'[\s\-\+]', '', l)`: delete whitespace, hyphens and plus signs. -/
def phoneClassSub (l : Str) : Str :=
  l.filter (fun c => !(isPySpace c || c = '-' || c = '+'))

/-- `Contact.fmethod`: `re.sub(r'[\s\-\+]','', ';'.join(set(re.findall(phone, ravel(value)))))`.
Note `ravel(value)` uses ravel's default separator `' '`, not `';'`. -/
def contactFmethod (value : List Str) : Str :=
  phoneClassSub (joinSep [';'] (pySet (findallPhone (ravelList [' '] value))))

/-- Exceptions visible to the `Formatter.cast` boundary: `ParseError`
(defined in `Model.py`) versus any other exception type. -/
inductive Exc where
  | parse : Exc
  | other : Exc
deriving DecidableEq

/-- `Formatter.cast`'s wrapper: `res = None; try: res = func(self, value)
except ParseError: logger.warning('failed parsing %s' % value); return res`.
The result pairs the value (`some`/`none`) with the warning log; only
`ParseError` is caught — any other exception propagates. -/
def castWrap {α β : Type} (fm : α → Except Exc β) (v : α) : Except Exc (Option β × List α) :=
  match fm v with
  | .ok x => .ok (some x, [])
  | .error .parse => .ok (none, [v])
  | .error .other => .error .other

/-- `PublishDate.fmethod` with the external `dateparser.parse` capability
abstracted as `dp`: parse `ravel(value)`; a `None` date raises `ParseError`. -/
def pubDateFmethod (dp : Str → Option Str) (value : List Str) : Except Exc Str :=
  match dp (ravelList [' '] value) with
  | some d => .ok d
  | none => .error .parse

/-- A formatting function raising a non-`ParseError` exception (e.g. a
`TypeError` escaping a field's `fmethod`): used to probe the `cast` boundary. -/
def raisesOther : Nat → Except Exc Nat := fun _ => .error .other

/-- Values of a Python record as flattened by `utils.flatten_dict`: scalar
leaves, nested dicts, nested lists. -/
inductive PyVal where
  | prim : Str → PyVal
  | dict : List (Str × PyVal) → PyVal
  | arr : List PyVal → PyVal

mutual
/-- The item loop of `utils.flatten_dict` over a dict's entries:
`new_key = parent_key + sep + k if parent_key else k`. -/
def flatEntries (sep : Str) : List (Str × PyVal) → Str → List (Str × Str)
  | [], _ => []
  | (k, v) :: rest, parent =>
    flatVal sep v (if parent = [] then k else parent ++ sep ++ k) ++ flatEntries sep rest parent

/-- Dispatch on one value: scalars append `(new_key, v)`, dicts recurse,
lists run the index loop. -/
def flatVal (sep : Str) : PyVal → Str → List (Str × Str)
  | .prim s, nk => [(nk, s)]
  | .dict es, nk => flatEntries sep es nk
  | .arr vs, nk => flatArr sep vs 0 nk

/-- The list loop: a dict/list element is flattened as `{str(i): val}` under
`new_key` (inlined: its single entry gives key `new_key sep str(i)`, or
`str(i)` when `new_key` is empty); a scalar element appends
`(f"{new_key}{sep}{i}", val)` (unconditional concatenation). -/
def flatArr (sep : Str) : List PyVal → Nat → Str → List (Str × Str)
  | [], _, _ => []
  | v :: vs, i, nk =>
    (match v with
     | .prim s => [(nk ++ sep ++ natStr i, s)]
     | .dict es => flatVal sep (.dict es) (if nk = [] then natStr i else nk ++ sep ++ natStr i)
     | .arr ws => flatVal sep (.arr ws) (if nk = [] then natStr i else nk ++ sep ++ natStr i)) ++
      flatArr sep vs (i + 1) nk
end

/-- `utils.flatten_dict(d)`: collect the items, then `dict(items)`. -/
def flatten_dict (sep : Str) (d : List (Str × PyVal)) : List (Str × Str) :=
  dictOf (flatEntries sep d [])

/-- Re-read a flat mapping as a Python dict of scalar values (what feeding
`flatten_dict`'s own output back to it means). -/
def asPyDict (l : List (Str × Str)) : List (Str × PyVal) :=
  l.map (fun p => (p.1, PyVal.prim p.2))

/-! ### Generic string lemmas -/

theorem takeWhile_ne_append (x : Char) {m : Str} (r : Str) (hm : x ∉ m) :
    (m ++ x :: r).takeWhile (fun y => decide (y ≠ x)) = m := by
  induction m with
  | nil => simp [List.takeWhile_cons]
  | cons c t ih =>
    have hc : c ≠ x := fun h => hm (h ▸ List.mem_cons_self c t)
    simp only [List.cons_append, List.takeWhile_cons, decide_eq_true_eq]
    rw [if_pos hc, ih (fun h => hm (List.mem_cons_of_mem _ h))]

theorem seg_eq_of_append_single {x : Char} {p c m t : Str} (hc : x ∉ c) (ht : x ∉ t)
    (h : p ++ x :: c = m ++ x :: t) : p = m ∧ c = t := by
  have hrev : c.reverse ++ x :: p.reverse = t.reverse ++ x :: m.reverse := by
    have h' := congrArg List.reverse h
    simpa [List.reverse_append, List.append_assoc] using h'
  have hct : c.reverse = t.reverse := by
    have h1 := takeWhile_ne_append x (m := c.reverse) p.reverse (by simpa using hc)
    have h2 := takeWhile_ne_append x (m := t.reverse) m.reverse (by simpa using ht)
    rw [hrev, h2] at h1
    exact h1.symm
  have hct' : c = t := by
    have := congrArg List.reverse hct
    simpa using this
  subst hct'
  exact ⟨List.append_cancel_right h, rfl⟩

theorem globStar_iff (pre suf key : Str) :
    globStar pre suf key = true ↔ ∃ m, key = pre ++ m ++ suf := by
  unfold globStar
  simp only [Bool.and_eq_true, decide_eq_true_eq]
  constructor
  · rintro ⟨⟨hlen, htake⟩, hdrop⟩
    refine ⟨(key.drop pre.length).take (key.length - pre.length - suf.length), ?_⟩
    conv_lhs => rw [← List.take_append_drop pre.length key]
    rw [htake, List.append_assoc]
    congr 1
    conv_lhs =>
      rw [← List.take_append_drop (key.length - pre.length - suf.length) (key.drop pre.length)]
    congr 1
    rw [List.drop_drop]
    have harith : pre.length + (key.length - pre.length - suf.length) =
        key.length - suf.length := by omega
    rw [harith, hdrop]
  · rintro ⟨m, rfl⟩
    have hlen : (pre ++ m ++ suf).length = pre.length + m.length + suf.length := by
      simp [Nat.add_assoc]
    refine ⟨⟨by omega, ?_⟩, ?_⟩
    · rw [List.append_assoc, List.take_left]
    · have hl : (pre ++ m ++ suf).length - suf.length = (pre ++ m).length := by
        simp only [List.length_append]
        omega
      rw [hl, List.drop_left]

theorem globStar_ptp {root p c t : Str} (hc : ':' ∉ c) (ht : ':' ∉ t) :
    globStar (root ++ idsSeg) (':' :: t) (parent_tel_pattern root c p) = true ↔ t = c := by
  rw [globStar_iff]
  constructor
  · rintro ⟨m, hm⟩
    simp only [parent_tel_pattern, List.append_assoc] at hm
    have hseg : p ++ ':' :: c = m ++ ':' :: t :=
      List.append_cancel_left (List.append_cancel_left hm)
    exact ((seg_eq_of_append_single hc ht hseg).2).symm
  · rintro rfl
    exact ⟨p, by simp [parent_tel_pattern, List.append_assoc]⟩

theorem ptp_inj {root p q c t : Str} (hc : ':' ∉ c) (ht : ':' ∉ t)
    (h : parent_tel_pattern root c p = parent_tel_pattern root t q) : p = q ∧ c = t := by
  simp only [parent_tel_pattern, List.append_assoc] at h
  exact seg_eq_of_append_single hc ht (List.append_cancel_left (List.append_cancel_left h))

/-! ### `splitOnC` lemmas -/

theorem splitOnC_ne_nil (sep : Char) (l : Str) : splitOnC sep l ≠ [] := by
  induction l with
  | nil => simp [splitOnC]
  | cons c cs ih =>
    by_cases hc : c = sep
    · simp [splitOnC, hc]
    · obtain ⟨s, ss, hs⟩ := List.exists_cons_of_ne_nil ih
      simp [splitOnC, hc, hs]

theorem splitOnC_no (sep : Char) {a : Str} (h : sep ∉ a) : splitOnC sep a = [a] := by
  induction a with
  | nil => rfl
  | cons c t ih =>
    have hc : ¬ c = sep := fun hh => h (hh ▸ List.mem_cons_self c t)
    have ht := ih (fun hh => h (List.mem_cons_of_mem _ hh))
    simp [splitOnC, hc, ht]

theorem splitOnC_append (sep : Char) {a : Str} (r : Str) (h : sep ∉ a) :
    splitOnC sep (a ++ sep :: r) = a :: splitOnC sep r := by
  induction a with
  | nil => simp [splitOnC]
  | cons c t ih =>
    have hc : ¬ c = sep := fun hh => h (hh ▸ List.mem_cons_self c t)
    have ht := ih (fun hh => h (List.mem_cons_of_mem _ hh))
    simp [splitOnC, hc, ht]

theorem mem_of_mem_splitOnC (sep : Char) :
    ∀ {l e : Str}, e ∈ splitOnC sep l → ∀ x ∈ e, x ∈ l := by
  intro l
  induction l with
  | nil =>
    intro e he x hx
    simp [splitOnC] at he
    subst he
    exact absurd hx (List.not_mem_nil x)
  | cons c cs ih =>
    intro e he x hx
    by_cases hc : c = sep
    · rw [splitOnC, if_pos hc] at he
      rcases List.mem_cons.mp he with h1 | h2
      · subst h1; exact absurd hx (List.not_mem_nil x)
      · exact List.mem_cons_of_mem _ (ih h2 x hx)
    · obtain ⟨s, ss, hs⟩ := List.exists_cons_of_ne_nil (splitOnC_ne_nil sep cs)
      rw [splitOnC, if_neg hc, hs] at he
      rcases List.mem_cons.mp he with h1 | h2
      · subst h1
        rcases List.mem_cons.mp hx with h3 | h4
        · exact h3 ▸ List.mem_cons_self c cs
        · exact List.mem_cons_of_mem _ (ih (hs ▸ List.mem_cons_self s ss) x h4)
      · exact List.mem_cons_of_mem _ (ih (hs ▸ List.mem_cons_of_mem _ h2) x hx)

theorem split_ptp {root p c : Str} (hr : ':' ∉ root) (hp : ':' ∉ p) (hc : ':' ∉ c) :
    splitOnC ':' (parent_tel_pattern root c p) = [root, ['I', 'd', 's'], p, c] := by
  have hshape : parent_tel_pattern root c p =
      root ++ ':' :: (['I', 'd', 's'] ++ ':' :: (p ++ ':' :: c)) := by
    simp [parent_tel_pattern, idsSeg]
  have hIds : ':' ∉ ['I', 'd', 's'] := by decide
  rw [hshape, splitOnC_append _ _ hr, splitOnC_append _ _ hIds, splitOnC_append _ _ hp,
    splitOnC_no _ hc]

/-! ### `Forall₂` and store helper lemmas -/

theorem forall₂_lastD {α β : Type} (R : α → β → Prop) (d₁ : α) (d₂ : β) :
    ∀ {l₁ : List α} {l₂ : List β}, List.Forall₂ R l₁ l₂ → l₁ ≠ [] →
      R (lastD d₁ l₁) (lastD d₂ l₂) := by
  intro l₁ l₂ h
  induction h with
  | nil => intro hne; exact absurd rfl hne
  | @cons a b t₁ t₂ hab htail ih =>
    intro _
    cases htail with
    | nil => simpa [lastD] using hab
    | @cons a' b' t₁' t₂' hab' htail' =>
      have := ih (by simp)
      simpa [lastD] using this

theorem forall₂_zip_dropLast {α β : Type} (R : α → β → Prop) :
    ∀ {l₁ : List α} {l₂ : List β}, List.Forall₂ R l₁ l₂ →
      ∀ a b, (a, b) ∈ l₁.zip l₂.dropLast → R a b := by
  intro l₁ l₂ h
  induction h with
  | nil => simp
  | @cons a₀ b₀ t₁ t₂ hab htail ih =>
    intro a b hm
    cases t₂ with
    | nil => simp [List.zip] at hm
    | cons c t₂' =>
      rw [List.dropLast_cons₂, List.zip_cons_cons] at hm
      rcases List.mem_cons.mp hm with h1 | h2
      · rw [Prod.mk.injEq] at h1
        obtain ⟨rfl, rfl⟩ := h1
        exact hab
      · exact ih a b h2

theorem keysIds_rdel (root : Str) (s : List Str) (t k : Str) :
    keysIds root (rdel s k) t = (keysIds root s t).filter (fun x => decide (x ≠ k)) := by
  rw [keysIds, rdel, List.filter_filter, keysIds, List.filter_filter]
  apply List.filter_congr
  intro x _
  exact Bool.and_comm _ _

theorem mem_rset_self (s : List Str) (k : Str) : k ∈ rset s k := by
  by_cases h : k ∈ s <;> simp [rset, h]

theorem mem_rset_of_mem {s : List Str} {x : Str} (k : Str) (h : x ∈ s) : x ∈ rset s k := by
  by_cases h2 : k ∈ s <;> simp [rset, h2, h]

theorem mem_rdel_of_mem {s : List Str} {x k : Str} (h : x ∈ s) (hne : x ≠ k) :
    x ∈ rdel s k := by
  simp [rdel, List.mem_filter, h, hne]

theorem mem_of_mem_rdel {s : List Str} {x k : Str} (h : x ∈ rdel s k) : x ∈ s :=
  (List.mem_filter.mp h).1

theorem structured_rdel {root : Str} {s : List Str} (hS : Structured root s) (k : Str) :
    Structured root (rdel s k) :=
  fun x hx => hS x (mem_of_mem_rdel hx)

theorem structured_rset {root : Str} {s : List Str} (hS : Structured root s)
    {p c : Str} (hp : ':' ∉ p) (hc : ':' ∉ c) :
    Structured root (rset s (parent_tel_pattern root c p)) := by
  intro x hx
  by_cases h2 : parent_tel_pattern root c p ∈ s
  · exact hS x (by simpa [rset, h2] using hx)
  · rw [rset, if_neg h2] at hx
    rcases List.mem_append.mp hx with h3 | h4
    · exact hS x h3
    · exact ⟨p, c, hp, hc, List.mem_singleton.mp h4⟩

/-! ### Specification of the identity-store operations -/

theorem globStar_ptp_self {root t : Str} (ht : ':' ∉ t) :
    globStar (root ++ idsSeg) (':' :: t) (parent_tel_pattern root t t) = true :=
  (globStar_ptp ht ht).mpr rfl

theorem globStar_ptp_ne {root p c t : Str} (hc : ':' ∉ c) (ht : ':' ∉ t) (hne : t ≠ c) :
    globStar (root ++ idsSeg) (':' :: t) (parent_tel_pattern root c p) = false := by
  cases hb : globStar (root ++ idsSeg) (':' :: t) (parent_tel_pattern root c p) with
  | false => rfl
  | true => exact absurd ((globStar_ptp hc ht).mp hb) hne

theorem get_tel_parent_spec {root t : Str} (ht : ':' ∉ t)
    {s : List Str} (hS : Structured root s) (hM : AtMostOne root s) :
    ∃ p s', get_tel_parent root s t = (s', [parent_tel_pattern root t p]) ∧ ':' ∉ p ∧
      Structured root s' ∧ AtMostOne root s' ∧ (∀ k ∈ s, k ∈ s') ∧
      parent_tel_pattern root t p ∈ s' := by
  cases hks : keysIds root s t with
  | nil =>
    have hnotin : parent_tel_pattern root t t ∉ s := by
      intro hin
      have hmemf : parent_tel_pattern root t t ∈ keysIds root s t :=
        List.mem_filter.mpr ⟨hin, globStar_ptp_self ht⟩
      rw [hks] at hmemf
      exact absurd hmemf (List.not_mem_nil _)
    have hgetEq : get_tel_parent root s t =
        (s ++ [parent_tel_pattern root t t], [parent_tel_pattern root t t]) := by
      simp [get_tel_parent, hks, set_parent, rset, hnotin]
    refine ⟨t, s ++ [parent_tel_pattern root t t], hgetEq, ht, ?_, ?_, ?_, ?_⟩
    · intro k hk
      rcases List.mem_append.mp hk with h1 | h2
      · exact hS k h1
      · exact ⟨t, t, ht, ht, List.mem_singleton.mp h2⟩
    · intro u hu
      have hsplit : keysIds root (s ++ [parent_tel_pattern root t t]) u =
          keysIds root s u ++ keysIds root [parent_tel_pattern root t t] u := by
        simp [keysIds, List.filter_append]
      rw [hsplit, List.length_append]
      by_cases hut : u = t
      · subst hut
        rw [show keysIds root s u = [] from hks]
        have : (keysIds root [parent_tel_pattern root u u] u).length ≤ 1 := by
          simp [keysIds, List.filter]
          split <;> simp
        simpa using this
      · have hz : keysIds root [parent_tel_pattern root t t] u = [] := by
          simp [keysIds, List.filter, globStar_ptp_ne ht hu hut]
        rw [hz]
        have := hM u hu
        simpa using this
    · exact fun k hk => List.mem_append.mpr (Or.inl hk)
    · exact List.mem_append.mpr (Or.inr (List.mem_singleton.mpr rfl))
  | cons k0 rest =>
    have hlen := hM t ht
    rw [hks] at hlen
    have hrest : rest = [] := by
      cases rest with
      | nil => rfl
      | cons a b => simp at hlen
    subst hrest
    have hk0mem : k0 ∈ keysIds root s t := by rw [hks]; exact List.mem_cons_self _ _
    have hk0s : k0 ∈ s := (List.mem_filter.mp hk0mem).1
    have hglob := (List.mem_filter.mp hk0mem).2
    obtain ⟨p, c, hp, hc, hkey⟩ := hS k0 hk0s
    have htc : t = c := (globStar_ptp hc ht).mp (hkey ▸ hglob)
    subst htc
    refine ⟨p, s, ?_, hp, hS, hM, fun k hk => hk, hkey ▸ hk0s⟩
    rw [← hkey]
    simp [get_tel_parent, hks]

theorem tel_parents_spec {root : Str} :
    ∀ (tels : List Str) (s s₁ : List Str) (ps : List (List Str)),
      tel_parents root s tels = (s₁, ps) → Structured root s → AtMostOne root s →
      (∀ t ∈ tels, ':' ∉ t) →
      Structured root s₁ ∧ AtMostOne root s₁ ∧ (∀ k ∈ s, k ∈ s₁) ∧
      List.Forall₂
        (fun t old => ':' ∉ t ∧ ∃ p, ':' ∉ p ∧ old = [parent_tel_pattern root t p] ∧
          parent_tel_pattern root t p ∈ s₁) tels ps := by
  intro tels
  induction tels with
  | nil =>
    intro s s₁ ps heq hS hM _
    rw [tel_parents] at heq
    obtain ⟨rfl, rfl⟩ := Prod.mk.injEq .. ▸ heq
    exact ⟨hS, hM, fun k hk => hk, List.Forall₂.nil⟩
  | cons t ts ih =>
    intro s s₁ ps heq hS hM htels
    have ht := htels t (List.mem_cons_self t ts)
    obtain ⟨p, s', hget, hp, hS', hM', hmono, hmem⟩ := get_tel_parent_spec ht hS hM
    rw [tel_parents, hget] at heq
    cases hrest : tel_parents root s' ts with
    | mk s₂ ps₂ =>
      rw [hrest] at heq
      simp only [Prod.mk.injEq] at heq
      obtain ⟨rfl, rfl⟩ := heq
      obtain ⟨ihS, ihM, ihmono, ihF⟩ :=
        ih s' s₂ ps₂ hrest hS' hM' (fun u hu => htels u (List.mem_cons_of_mem _ hu))
      refine ⟨ihS, ihM, fun k hk => ihmono _ (hmono _ hk), ?_⟩
      exact List.Forall₂.cons ⟨ht, p, hp, rfl, ihmono _ hmem⟩ ihF

theorem merge_parents_spec {root canon : Str} (hcanon : ':' ∉ canon) :
    ∀ (zl : List (Str × List Str)) (s : List Str), Structured root s → AtMostOne root s →
      (∀ pr ∈ zl, ':' ∉ pr.1 ∧ ∃ p, ':' ∉ p ∧ pr.2 = [parent_tel_pattern root pr.1 p] ∧
        (parent_tel_pattern root pr.1 p ∈ s ∨ parent_tel_pattern root pr.1 canon ∈ s)) →
      Structured root (merge_parents root canon s zl) ∧
        AtMostOne root (merge_parents root canon s zl) := by
  intro zl
  induction zl with
  | nil => intro s hS hM _; exact ⟨hS, hM⟩
  | cons pr rest ih =>
    obtain ⟨t, old⟩ := pr
    intro s hS hM hinv
    obtain ⟨ht, p, hp, hold, hdisj⟩ := hinv (t, old) (List.mem_cons_self _ _)
    dsimp only at ht hold hdisj
    subst hold
    rw [merge_parents]
    have hupd : (update_tel_parent root s t [parent_tel_pattern root t p] canon).1 =
        rset (rdel s (parent_tel_pattern root t p)) (parent_tel_pattern root t canon) := by
      simp [update_tel_parent, set_parent]
    rw [hupd]
    set kp := parent_tel_pattern root t p with hkp
    set ck := parent_tel_pattern root t canon with hck
    set d := rdel s kp with hd
    have hS' : Structured root (rset d ck) :=
      structured_rset (structured_rdel hS kp) hcanon ht
    have hM' : AtMostOne root (rset d ck) := by
      intro u hu
      have hkd : keysIds root d u = (keysIds root s u).filter (fun x => decide (x ≠ kp)) :=
        keysIds_rdel root s u kp
      by_cases hckd : ck ∈ d
      · have hs' : rset d ck = d := by simp [rset, hckd]
        rw [hs', hkd]
        exact le_trans (List.length_filter_le _ _) (hM u hu)
      · have hs' : rset d ck = d ++ [ck] := by simp [rset, hckd]
        have hsplit : keysIds root (d ++ [ck]) u = keysIds root d u ++ keysIds root [ck] u := by
          simp [keysIds, List.filter_append]
        rw [hs', hsplit, List.length_append]
        by_cases hut : u = t
        · subst hut
          have hdnil : keysIds root d u = [] := by
            rw [hkd]
            cases hKt : keysIds root s u with
            | nil => rfl
            | cons k0 krest =>
              have hlen := hM u hu
              rw [hKt] at hlen
              have hkrest : krest = [] := by
                cases krest with
                | nil => rfl
                | cons a b => simp at hlen
              subst hkrest
              have hk0 : k0 = kp := by
                rcases hdisj with hkps | hcks
                · have : kp ∈ keysIds root s u :=
                    List.mem_filter.mpr ⟨hkps, (globStar_ptp ht ht).mpr rfl⟩
                  rw [hKt] at this
                  exact (List.mem_singleton.mp this).symm
                · have hckm : ck ∈ keysIds root s u :=
                    List.mem_filter.mpr ⟨hcks, (globStar_ptp ht ht).mpr rfl⟩
                  rw [hKt] at hckm
                  have hk0ck : k0 = ck := (List.mem_singleton.mp hckm).symm
                  by_cases hckkp : ck = kp
                  · rw [hk0ck, hckkp]
                  · exact absurd (mem_rdel_of_mem hcks hckkp) hckd
              subst hk0
              simp [List.filter]
          rw [hdnil]
          have : (keysIds root [ck] u).length ≤ 1 := by
            simp [keysIds, List.filter]
            split <;> simp
          simpa using this
        · have hz : keysIds root [ck] u = [] := by
            simp [keysIds, List.filter, globStar_ptp_ne ht hu hut]
          rw [hz, hkd]
          have hstep :=
            le_trans (List.length_filter_le (fun x => decide (x ≠ kp)) (keysIds root s u))
              (hM u hu)
          simpa using hstep
    apply ih (rset d ck) hS' hM'
    intro pr' hpr'
    obtain ⟨ht', p', hp', hold', hdisj'⟩ := hinv pr' (List.mem_cons_of_mem _ hpr')
    refine ⟨ht', p', hp', hold', ?_⟩
    by_cases htt : pr'.1 = t
    · right
      rw [htt]
      exact mem_rset_self d ck
    · rcases hdisj' with h1 | h2
      · left
        have hne : parent_tel_pattern root pr'.1 p' ≠ kp := by
          intro hh
          exact htt ((ptp_inj ht' ht hh).2)
        exact mem_rset_of_mem ck (mem_rdel_of_mem h1 hne)
      · right
        have hne : parent_tel_pattern root pr'.1 canon ≠ kp := by
          intro hh
          exact htt ((ptp_inj ht' ht hh).2)
        exact mem_rset_of_mem ck (mem_rdel_of_mem h2 hne)

/-- C3: identity-namespace invariant — starting from any store in which every
key is a well-formed pointer `root:Ids:<parent>:<child>` with at most one
pointer per child, running `tel_id` on any contact string of (colon-free)
phone entries preserves both properties: each merge deletes the old pointer
before installing the new one, so no child ever ends up with two pointers. -/
theorem telId_keeps_unique_parent_pointer (root : Str) (s : List Str) (tel : Str)
    (hr : ':' ∉ root) (hS : Structured root s) (hM : AtMostOne root s)
    (htel : ':' ∉ tel) :
    Structured root (tel_id root s tel).1 ∧ AtMostOne root (tel_id root s tel).1 := by
  have htels : ∀ t ∈ splitOnC ';' tel, ':' ∉ t := by
    intro t htm hx
    exact htel (mem_of_mem_splitOnC ';' htm ':' hx)
  rw [tel_id]
  by_cases h0 : (splitOnC ';' tel).headD [] = []
  · rw [tel_id_tels, if_pos h0]
    exact ⟨hS, hM⟩
  · rw [tel_id_tels, if_neg h0]
    cases hgp : tel_parents root s (splitOnC ';' tel) with
    | mk s₁ ps =>
      obtain ⟨hS₁, hM₁, hmono, hF⟩ :=
        tel_parents_spec (splitOnC ';' tel) s s₁ ps hgp hS hM htels
      have hne : splitOnC ';' tel ≠ [] := splitOnC_ne_nil ';' tel
      obtain ⟨htL, pL, hpL, holdL, hmemL⟩ :=
        forall₂_lastD _ ([] : Str) ([] : List Str) hF hne
      simp only [hgp]
      have hcanon : (splitOnC ':' ((lastD [] ps).headD [])).getD 2 [] = pL := by
        rw [holdL]
        have hsp := split_ptp (c := lastD [] (splitOnC ';' tel)) hr hpL htL
        simp [hsp]
      rw [hcanon]
      refine merge_parents_spec hpL _ s₁ hS₁ hM₁ ?_
      intro pr hpr
      have hR := forall₂_zip_dropLast _ hF pr.1 pr.2 (by simpa using hpr)
      obtain ⟨ht', p', hp', hold', hmem'⟩ := hR
      exact ⟨ht', p', hp', hold', Or.inl hmem'⟩

/-- Witness for C3 at a concrete input: the empty store satisfies both
invariant halves, `':' ∉ "root"`, `':' ∉ "12;34"`, and the theorem applies. -/
theorem telId_keeps_unique_parent_pointer_witness :
    ':' ∉ (['r', 'o', 'o', 't'] : Str) ∧ Structured ['r', 'o', 'o', 't'] [] ∧
    AtMostOne ['r', 'o', 'o', 't'] [] ∧ ':' ∉ (['1', '2', ';', '3', '4'] : Str) ∧
    (Structured ['r', 'o', 'o', 't']
        (tel_id ['r', 'o', 'o', 't'] [] ['1', '2', ';', '3', '4']).1 ∧
      AtMostOne ['r', 'o', 'o', 't']
        (tel_id ['r', 'o', 'o', 't'] [] ['1', '2', ';', '3', '4']).1) :=
  ⟨by decide, fun k hk => absurd hk (List.not_mem_nil k), fun t _ => by simp [keysIds],
    by decide,
    telId_keeps_unique_parent_pointer _ _ _ (by decide)
      (fun k hk => absurd hk (List.not_mem_nil k)) (fun t _ => by simp [keysIds]) (by decide)⟩

/-- C1: for two distinct, already self-parented phones `A` and `B`,
`tel_id` on the contact list `[A, B]` returns `B` (the last entry's parent
identity), re-parents `A` onto `B` (the store afterwards holds exactly
`root:Ids:B:B` and `root:Ids:B:A`), a subsequent parent lookup for `A`
yields the pointer to canonical identity `B`, and exactly one identity
pointer remains for `A`. -/
theorem telId_two_contacts_reparents_first (root A B : Str)
    (hr : ':' ∉ root) (hA : ':' ∉ A) (hB : ':' ∉ B) (hAne : A ≠ []) (hABne : A ≠ B) :
    tel_id_tels root [parent_tel_pattern root A A, parent_tel_pattern root B B] [A, B] =
      ([parent_tel_pattern root B B, parent_tel_pattern root A B], B) ∧
    get_tel_parent root [parent_tel_pattern root B B, parent_tel_pattern root A B] A =
      ([parent_tel_pattern root B B, parent_tel_pattern root A B],
        [parent_tel_pattern root A B]) ∧
    (keysIds root [parent_tel_pattern root B B, parent_tel_pattern root A B] A).length = 1 := by
  have hBA : B ≠ A := fun h => hABne h.symm
  have hkABne : parent_tel_pattern root B B ≠ parent_tel_pattern root A A :=
    fun h => hBA (ptp_inj hB hA h).2
  have hkBAne : parent_tel_pattern root A B ≠ parent_tel_pattern root B B :=
    fun h => hABne (ptp_inj hA hB h).2
  have hkeysA : keysIds root [parent_tel_pattern root A A, parent_tel_pattern root B B] A =
      [parent_tel_pattern root A A] := by
    simp [keysIds, List.filter, globStar_ptp_self hA, globStar_ptp_ne hB hA hABne]
  have hkeysB : keysIds root [parent_tel_pattern root A A, parent_tel_pattern root B B] B =
      [parent_tel_pattern root B B] := by
    simp [keysIds, List.filter, globStar_ptp_self hB, globStar_ptp_ne hA hB hBA]
  have hgetA : get_tel_parent root
      [parent_tel_pattern root A A, parent_tel_pattern root B B] A =
      ([parent_tel_pattern root A A, parent_tel_pattern root B B],
        [parent_tel_pattern root A A]) := by
    simp [get_tel_parent, hkeysA]
  have hgetB : get_tel_parent root
      [parent_tel_pattern root A A, parent_tel_pattern root B B] B =
      ([parent_tel_pattern root A A, parent_tel_pattern root B B],
        [parent_tel_pattern root B B]) := by
    simp [get_tel_parent, hkeysB]
  have hpar : tel_parents root [parent_tel_pattern root A A, parent_tel_pattern root B B]
      [A, B] = ([parent_tel_pattern root A A, parent_tel_pattern root B B],
        [[parent_tel_pattern root A A], [parent_tel_pattern root B B]]) := by
    simp [tel_parents, hgetA, hgetB]
  have hrdel : rdel [parent_tel_pattern root A A, parent_tel_pattern root B B]
      (parent_tel_pattern root A A) = [parent_tel_pattern root B B] := by
    simp [rdel, List.filter, hkABne]
  have hrset : rset [parent_tel_pattern root B B] (parent_tel_pattern root A B) =
      [parent_tel_pattern root B B, parent_tel_pattern root A B] := by
    simp [rset, hkBAne]
  have hmerge : merge_parents root B
      [parent_tel_pattern root A A, parent_tel_pattern root B B]
      [(A, [parent_tel_pattern root A A])] =
      [parent_tel_pattern root B B, parent_tel_pattern root A B] := by
    simp [merge_parents, update_tel_parent, set_parent, hrdel, hrset]
  have hcanon : (splitOnC ':'
      ((lastD [] [[parent_tel_pattern root A A], [parent_tel_pattern root B B]]).headD
        [])).getD 2 [] = B := by
    simp [lastD, split_ptp hr hB hB]
  have hmain : tel_id_tels root
      [parent_tel_pattern root A A, parent_tel_pattern root B B] [A, B] =
      ([parent_tel_pattern root B B, parent_tel_pattern root A B], B) := by
    rw [tel_id_tels, if_neg (by simpa using hAne)]
    simp only [hpar, hcanon, List.dropLast, List.zip, List.zipWith, hgetA, hmerge]
  have hkeysA' : keysIds root
      [parent_tel_pattern root B B, parent_tel_pattern root A B] A =
      [parent_tel_pattern root A B] := by
    simp [keysIds, List.filter, globStar_ptp_ne hB hA hABne, (globStar_ptp hA hA).mpr rfl]
  refine ⟨hmain, ?_, ?_⟩
  · simp [get_tel_parent, hkeysA']
  · rw [hkeysA']
    rfl

/-- Witness for C1 at `root = "root"`, `A = "11"`, `B = "22"`. -/
theorem telId_two_contacts_reparents_first_witness :
    ':' ∉ (['r', 'o', 'o', 't'] : Str) ∧ ':' ∉ (['1', '1'] : Str) ∧
    ':' ∉ (['2', '2'] : Str) ∧ (['1', '1'] : Str) ≠ [] ∧
    (['1', '1'] : Str) ≠ ['2', '2'] ∧
    (tel_id_tels ['r', 'o', 'o', 't']
        [parent_tel_pattern ['r', 'o', 'o', 't'] ['1', '1'] ['1', '1'],
          parent_tel_pattern ['r', 'o', 'o', 't'] ['2', '2'] ['2', '2']]
        [['1', '1'], ['2', '2']] =
      ([parent_tel_pattern ['r', 'o', 'o', 't'] ['2', '2'] ['2', '2'],
          parent_tel_pattern ['r', 'o', 'o', 't'] ['1', '1'] ['2', '2']], ['2', '2']) ∧
    get_tel_parent ['r', 'o', 'o', 't']
        [parent_tel_pattern ['r', 'o', 'o', 't'] ['2', '2'] ['2', '2'],
          parent_tel_pattern ['r', 'o', 'o', 't'] ['1', '1'] ['2', '2']] ['1', '1'] =
      ([parent_tel_pattern ['r', 'o', 'o', 't'] ['2', '2'] ['2', '2'],
          parent_tel_pattern ['r', 'o', 'o', 't'] ['1', '1'] ['2', '2']],
        [parent_tel_pattern ['r', 'o', 'o', 't'] ['1', '1'] ['2', '2']]) ∧
    (keysIds ['r', 'o', 'o', 't']
        [parent_tel_pattern ['r', 'o', 'o', 't'] ['2', '2'] ['2', '2'],
          parent_tel_pattern ['r', 'o', 'o', 't'] ['1', '1'] ['2', '2']]
        ['1', '1']).length = 1) :=
  ⟨by decide, by decide, by decide, by decide, by decide,
    telId_two_contacts_reparents_first ['r', 'o', 'o', 't'] ['1', '1'] ['2', '2']
      (by decide) (by decide) (by decide) (by decide) (by decide)⟩

/-- C2: whenever the first semicolon-separated entry of the contact string is
empty (in particular for the empty contact string), `tel_id` returns the
sentinel `'Unknown'` and leaves the store untouched: no identity record is
created. -/
theorem telId_empty_first_entry_unknown (root : Str) (s : List Str) (tel : Str)
    (h : (splitOnC ';' tel).headD [] = []) :
    tel_id root s tel = (s, unknownStr) := by
  rw [tel_id, tel_id_tels, if_pos h]

/-- Witness for C2 at the empty contact string and the empty store. -/
theorem telId_empty_first_entry_unknown_witness :
    (splitOnC ';' ([] : Str)).headD [] = [] ∧
    tel_id ['r', 'o', 'o', 't'] [] [] = ([], unknownStr) :=
  ⟨by decide, telId_empty_first_entry_unknown _ _ _ (by decide)⟩


/-! ### Decimal representation and store lemmas for `Redis.push` -/

theorem digChar_inj_lt : ∀ a < 10, ∀ b < 10, digChar a = digChar b → a = b := by
  decide

theorem map_digChar_inj : ∀ (l1 l2 : List Nat), (∀ x ∈ l1, x < 10) → (∀ x ∈ l2, x < 10) →
    l1.map digChar = l2.map digChar → l1 = l2 := by
  intro l1
  induction l1 with
  | nil =>
    intro l2 _ _ h
    cases l2 with
    | nil => rfl
    | cons b t => simp at h
  | cons a t ih =>
    intro l2 hb1 hb2 h
    cases l2 with
    | nil => simp at h
    | cons b t2 =>
      simp only [List.map_cons, List.cons.injEq] at h
      have ha : a = b :=
        digChar_inj_lt a (hb1 a (List.mem_cons_self a t)) b (hb2 b (List.mem_cons_self b t2))
          h.1
      have ht : t = t2 :=
        ih t2 (fun x hx => hb1 x (List.mem_cons_of_mem _ hx))
          (fun x hx => hb2 x (List.mem_cons_of_mem _ hx)) h.2
      rw [ha, ht]

theorem natStr_inj_pos {m n : Nat} (hm : 0 < m) (hn : 0 < n) (h : natStr m = natStr n) :
    m = n := by
  rw [natStr, natStr, if_neg (Nat.pos_iff_ne_zero.mp hm),
    if_neg (Nat.pos_iff_ne_zero.mp hn)] at h
  have h2 := List.reverse_injective h
  have h3 := map_digChar_inj _ _
    (fun x hx => Nat.digits_lt_base (by norm_num) hx)
    (fun x hx => Nat.digits_lt_base (by norm_num) hx) h2
  calc m = Nat.ofDigits 10 (Nat.digits 10 m) := (Nat.ofDigits_digits 10 m).symm
    _ = Nat.ofDigits 10 (Nat.digits 10 n) := by rw [h3]
    _ = n := Nat.ofDigits_digits 10 n

theorem find?_overwrite {V : Type} (cs : List (Str × V)) (k : Str) (v : V)
    (h : cs.any (fun p => decide (p.1 = k)) = true) :
    (cs.map (fun p => if p.1 = k then (p.1, v) else p)).find?
      (fun p => decide (p.1 = k)) = some (k, v) := by
  induction cs with
  | nil => simp at h
  | cons p ps ih =>
    by_cases hp : p.1 = k
    · simp only [List.map_cons]
      rw [if_pos hp, List.find?_cons_of_pos _ (by simpa using hp), hp]
    · have h2 : ps.any (fun q => decide (q.1 = k)) = true := by
        obtain ⟨x, hx, hxk⟩ := List.any_eq_true.mp h
        rcases List.mem_cons.mp hx with h1 | h1
        · subst h1
          exact absurd (by simpa using hxk) hp
        · exact List.any_eq_true.mpr ⟨x, h1, hxk⟩
      simp only [List.map_cons]
      rw [if_neg hp, List.find?_cons_of_neg _ (by simpa using hp), ih h2]

theorem ctrGet_assocIns (cs : List (Str × Nat)) (k : Str) (v : Nat) :
    ctrGet (assocIns cs (k, v)) k = v := by
  rw [assocIns]
  by_cases h : cs.any (fun p => decide (p.1 = k)) = true
  · rw [if_pos h, ctrGet, find?_overwrite cs k v h]
    rfl
  · rw [if_neg h, ctrGet, List.find?_append]
    have h1 : cs.find? (fun p => decide (p.1 = k)) = none := by
      rw [List.find?_eq_none]
      intro x hx
      simp only [List.any_eq_true] at h
      simpa using fun hh => h ⟨x, hx, by simpa using hh⟩
    simp [h1, List.find?]

theorem hget_hset_same (hs : List (Str × List (Str × Str))) (k : Str) (m : List (Str × Str))
    (h : hget hs k = none) : hget (hset hs k m) k = some m := by
  have h1 : hs.find? (fun p => decide (p.1 = k)) = none := by
    rw [hget] at h
    exact Option.map_eq_none'.mp h
  have hany : hs.any (fun p => decide (p.1 = k)) = false := by
    cases hb : hs.any (fun p => decide (p.1 = k)) with
    | false => rfl
    | true =>
      obtain ⟨x, hx, hxk⟩ := List.any_eq_true.mp hb
      have := List.find?_eq_none.mp h1 x hx
      exact absurd hxk this
  rw [hset, if_neg (by simp [hany]), hget, List.find?_append, h1]
  simp [List.find?]

theorem find?_hset_map (hs : List (Str × List (Str × Str))) (k k' : Str)
    (m : List (Str × Str)) (hne : k' ≠ k) :
    (hs.map (fun p => if p.1 = k then (p.1, m.foldl assocIns p.2) else p)).find?
        (fun p => decide (p.1 = k')) =
      hs.find? (fun p => decide (p.1 = k')) := by
  induction hs with
  | nil => rfl
  | cons p ps ih =>
    by_cases hp : p.1 = k
    · have hp' : ¬ p.1 = k' := fun hh => hne (hh ▸ hp)
      simp only [List.map_cons]
      rw [if_pos hp, List.find?_cons_of_neg _ (by simpa using hp'),
        List.find?_cons_of_neg _ (by simpa using hp'), ih]
    · simp only [List.map_cons]
      rw [if_neg hp]
      by_cases hp2 : p.1 = k'
      · rw [List.find?_cons_of_pos _ (by simpa using hp2),
          List.find?_cons_of_pos _ (by simpa using hp2)]
      · rw [List.find?_cons_of_neg _ (by simpa using hp2),
          List.find?_cons_of_neg _ (by simpa using hp2), ih]

theorem hget_hset_other (hs : List (Str × List (Str × Str))) (k k' : Str)
    (m : List (Str × Str)) (hne : k' ≠ k) : hget (hset hs k m) k' = hget hs k' := by
  rw [hset]
  by_cases h : hs.any (fun p => decide (p.1 = k)) = true
  · rw [if_pos h, hget, hget, find?_hset_map hs k k' m hne]
  · rw [if_neg h, hget, hget, List.find?_append]
    cases hf : hs.find? (fun p => decide (p.1 = k')) with
    | some x => rfl
    | none =>
      have hkk : ¬ (k = k') := fun hh => hne hh.symm
      simp [List.find?, hkk]

/-- C4: the default push builds its key from the colon-joined non-empty
segments, draws its sequence number from the single global `'items'` counter
(whatever the pattern is), and writes the record at `pattern:seq`; two
successive pushes with the same segments get the consecutive, strictly
increasing sequence numbers `n+1 < n+2`, their keys differ, and both records
end up under their own key. -/
theorem redisPush_global_counter_distinct_keys (st : RedisState)
    (root domain category partition : Str) (f1 f2 : List (Str × Str))
    (h1 : hget st.hashes (pattern root domain category partition ++ ':' ::
        natStr (ctrGet st.counters itemsName + 1)) = none)
    (h2 : hget st.hashes (pattern root domain category partition ++ ':' ::
        natStr (ctrGet st.counters itemsName + 2)) = none) :
    (redisId st root domain category partition).2 =
      pattern root domain category partition ++ ':' ::
        natStr (ctrGet st.counters itemsName + 1) ∧
    (redisId (redisPush st root domain category partition f1)
        root domain category partition).2 =
      pattern root domain category partition ++ ':' ::
        natStr (ctrGet st.counters itemsName + 2) ∧
    ctrGet st.counters itemsName + 1 < ctrGet st.counters itemsName + 2 ∧
    pattern root domain category partition ++ ':' ::
        natStr (ctrGet st.counters itemsName + 1) ≠
      pattern root domain category partition ++ ':' ::
        natStr (ctrGet st.counters itemsName + 2) ∧
    hget (redisPush (redisPush st root domain category partition f1)
        root domain category partition f2).hashes
      (pattern root domain category partition ++ ':' ::
        natStr (ctrGet st.counters itemsName + 1)) = some f1 ∧
    hget (redisPush (redisPush st root domain category partition f1)
        root domain category partition f2).hashes
      (pattern root domain category partition ++ ':' ::
        natStr (ctrGet st.counters itemsName + 2)) = some f2 := by
  have hctr1 : ctrGet (redisPush st root domain category partition f1).counters itemsName =
      ctrGet st.counters itemsName + 1 :=
    ctrGet_assocIns st.counters itemsName (ctrGet st.counters itemsName + 1)
  have hid1 : (redisId st root domain category partition).2 =
      pattern root domain category partition ++ ':' ::
        natStr (ctrGet st.counters itemsName + 1) := rfl
  have hid2 : (redisId (redisPush st root domain category partition f1)
      root domain category partition).2 =
      pattern root domain category partition ++ ':' ::
        natStr (ctrGet st.counters itemsName + 2) := by
    show pattern root domain category partition ++ ':' ::
        natStr ((incr (redisPush st root domain category partition f1) itemsName).2) = _
    rw [show (incr (redisPush st root domain category partition f1) itemsName).2 =
        ctrGet (redisPush st root domain category partition f1).counters itemsName + 1
      from rfl, hctr1]
  have hk12 : pattern root domain category partition ++ ':' ::
      natStr (ctrGet st.counters itemsName + 1) ≠
      pattern root domain category partition ++ ':' ::
        natStr (ctrGet st.counters itemsName + 2) := by
    intro h
    have h' := List.append_cancel_left h
    have h'' : natStr (ctrGet st.counters itemsName + 1) =
        natStr (ctrGet st.counters itemsName + 2) := by
      simpa using h'
    have := natStr_inj_pos (by omega) (by omega) h''
    omega
  have hbase : ∀ (X : RedisState) (f : List (Str × Str)),
      (redisPush X root domain category partition f).hashes =
        hset X.hashes (redisId X root domain category partition).2 f :=
    fun X f => rfl
  have hh1 : (redisPush st root domain category partition f1).hashes =
      hset st.hashes (pattern root domain category partition ++ ':' ::
        natStr (ctrGet st.counters itemsName + 1)) f1 := by
    rw [hbase, hid1]
  have hh2 : (redisPush (redisPush st root domain category partition f1)
      root domain category partition f2).hashes =
      hset (hset st.hashes (pattern root domain category partition ++ ':' ::
          natStr (ctrGet st.counters itemsName + 1)) f1)
        (pattern root domain category partition ++ ':' ::
          natStr (ctrGet st.counters itemsName + 2)) f2 := by
    rw [hbase, hid2, hh1]
  have hget1 : hget (hset st.hashes (pattern root domain category partition ++ ':' ::
      natStr (ctrGet st.counters itemsName + 1)) f1)
      (pattern root domain category partition ++ ':' ::
        natStr (ctrGet st.counters itemsName + 1)) = some f1 :=
    hget_hset_same _ _ _ h1
  have hget2none : hget (hset st.hashes (pattern root domain category partition ++ ':' ::
      natStr (ctrGet st.counters itemsName + 1)) f1)
      (pattern root domain category partition ++ ':' ::
        natStr (ctrGet st.counters itemsName + 2)) = none := by
    rw [hget_hset_other _ _ _ _ (Ne.symm hk12)]
    exact h2
  refine ⟨hid1, hid2, by omega, hk12, ?_, ?_⟩
  · rw [hh2, hget_hset_other _ _ _ _ hk12]
    exact hget1
  · rw [hh2]
    exact hget_hset_same _ _ _ hget2none

/-- Witness for C4: empty initial state, segments `"r" / "d" / "c" / ""`,
two one-field records. -/
theorem redisPush_global_counter_distinct_keys_witness :
    hget (RedisState.mk [] []).hashes (pattern ['r'] ['d'] ['c'] [] ++ ':' ::
        natStr (ctrGet (RedisState.mk [] []).counters itemsName + 1)) = none ∧
    hget (RedisState.mk [] []).hashes (pattern ['r'] ['d'] ['c'] [] ++ ':' ::
        natStr (ctrGet (RedisState.mk [] []).counters itemsName + 2)) = none ∧
    ((redisId (RedisState.mk [] []) ['r'] ['d'] ['c'] []).2 =
      pattern ['r'] ['d'] ['c'] [] ++ ':' ::
        natStr (ctrGet (RedisState.mk [] []).counters itemsName + 1) ∧
    (redisId (redisPush (RedisState.mk [] []) ['r'] ['d'] ['c'] [] [(['a'], ['x'])])
        ['r'] ['d'] ['c'] []).2 =
      pattern ['r'] ['d'] ['c'] [] ++ ':' ::
        natStr (ctrGet (RedisState.mk [] []).counters itemsName + 2) ∧
    ctrGet (RedisState.mk [] []).counters itemsName + 1 <
      ctrGet (RedisState.mk [] []).counters itemsName + 2 ∧
    pattern ['r'] ['d'] ['c'] [] ++ ':' ::
        natStr (ctrGet (RedisState.mk [] []).counters itemsName + 1) ≠
      pattern ['r'] ['d'] ['c'] [] ++ ':' ::
        natStr (ctrGet (RedisState.mk [] []).counters itemsName + 2) ∧
    hget (redisPush (redisPush (RedisState.mk [] []) ['r'] ['d'] ['c'] [] [(['a'], ['x'])])
        ['r'] ['d'] ['c'] [] [(['a'], ['y'])]).hashes
      (pattern ['r'] ['d'] ['c'] [] ++ ':' ::
        natStr (ctrGet (RedisState.mk [] []).counters itemsName + 1)) =
      some [(['a'], ['x'])] ∧
    hget (redisPush (redisPush (RedisState.mk [] []) ['r'] ['d'] ['c'] [] [(['a'], ['x'])])
        ['r'] ['d'] ['c'] [] [(['a'], ['y'])]).hashes
      (pattern ['r'] ['d'] ['c'] [] ++ ':' ::
        natStr (ctrGet (RedisState.mk [] []).counters itemsName + 2)) =
      some [(['a'], ['y'])]) :=
  ⟨rfl, rfl,
    redisPush_global_counter_distinct_keys (RedisState.mk [] []) ['r'] ['d'] ['c'] []
      [(['a'], ['x'])] [(['a'], ['y'])] rfl rfl⟩

/-! ### Key patterns and adjacent delimiters -/

theorem chainNC_of_no_colon {l : Str} (h : ':' ∉ l) :
    List.Chain' (fun a b => ¬(a = ':' ∧ b = ':')) l := by
  induction l with
  | nil => simp
  | cons a t ih =>
    have ha : a ≠ ':' := fun hh => h (hh ▸ List.mem_cons_self a t)
    have ht := ih (fun hh => h (List.mem_cons_of_mem _ hh))
    rw [List.chain'_cons']
    exact ⟨fun b _ hc => ha hc.1, ht⟩

theorem joinSep_head_mem (y : Str) (ys : List Str) (hy : y ≠ []) (b : Char)
    (hb : (joinSep [':'] (y :: ys)).head? = some b) : b ∈ y := by
  cases y with
  | nil => exact absurd rfl hy
  | cons c t =>
    cases ys with
    | nil =>
      rw [joinSep] at hb
      simp at hb
      simp [hb]
    | cons y2 ys2 =>
      rw [joinSep] at hb
      simp at hb
      simp [hb]

theorem mem_of_getLast?_char : ∀ {l : Str} {a : Char}, l.getLast? = some a → a ∈ l := by
  intro l
  induction l with
  | nil => intro a h; simp at h
  | cons c t ih =>
    intro a h
    cases t with
    | nil =>
      simp at h
      simp [h]
    | cons d t2 =>
      rw [List.getLast?_cons_cons] at h
      exact List.mem_cons_of_mem _ (ih h)

theorem chainNC_joinSep : ∀ (segs : List Str), (∀ x ∈ segs, x ≠ [] ∧ ':' ∉ x) →
    List.Chain' (fun a b => ¬(a = ':' ∧ b = ':')) (joinSep [':'] segs) := by
  intro segs
  induction segs with
  | nil => intro _; simp [joinSep]
  | cons x xs ih =>
    intro h
    obtain ⟨hxne, hxc⟩ := h x (List.mem_cons_self x xs)
    cases xs with
    | nil => exact chainNC_of_no_colon hxc
    | cons y ys =>
      rw [joinSep, List.append_assoc]
      rw [List.chain'_append]
      obtain ⟨hyne, _⟩ := h y (List.mem_cons_of_mem _ (List.mem_cons_self y ys))
      refine ⟨chainNC_of_no_colon hxc, ?_, ?_⟩
      · show List.Chain' _ (':' :: joinSep [':'] (y :: ys))
        rw [List.chain'_cons']
        refine ⟨?_, ih (fun z hz => h z (List.mem_cons_of_mem _ hz))⟩
        intro b hb hc
        have hbm := joinSep_head_mem y ys hyne b hb
        have : ':' ∉ y := (h y (List.mem_cons_of_mem _ (List.mem_cons_self y ys))).2
        exact this (hc.2 ▸ hbm)
      · intro a ha b hb hc
        have ham := mem_of_getLast?_char ha
        exact hxc (hc.1 ▸ ham)

theorem noAdjColon_joinSep (segs : List Str) (h : ∀ x ∈ segs, x ≠ [] ∧ ':' ∉ x) :
    ¬ ([':', ':'] <:+: joinSep [':'] segs) := by
  intro hinf
  obtain ⟨u, v, huv⟩ := hinf
  have hch := chainNC_joinSep segs h
  rw [← huv, List.append_assoc] at hch
  have h2 := (List.chain'_append.mp hch).2.1
  have h3 : List.Chain' (fun a b => ¬(a = ':' ∧ b = ':')) (':' :: ':' :: v) := h2
  rw [List.chain'_cons'] at h3
  exact h3.1 ':' rfl ⟨rfl, rfl⟩

/-- C5 counterexample: `users_pattern` does **not** omit empty segments — with
an empty canonical contact it produces `root:Users::Domains:d:Categories:c`,
which contains the adjacent delimiters `"::"`. -/
theorem users_pattern_empty_contact_adjacent_delimiters :
    users_pattern ['r', 'o', 'o', 't'] [] ['d'] ['c'] =
      ('r' :: 'o' :: 'o' :: 't' :: ':' :: 'U' :: 's' :: 'e' :: 'r' :: 's' :: ':' :: ':' ::
        'D' :: 'o' :: 'm' :: 'a' :: 'i' :: 'n' :: 's' :: ':' :: 'd' :: ':' ::
        'C' :: 'a' :: 't' :: 'e' :: 'g' :: 'o' :: 'r' :: 'i' :: 'e' :: 's' :: ':' :: 'c' ::
        []) ∧
    [':', ':'] <:+: users_pattern ['r', 'o', 'o', 't'] [] ['d'] ['c'] := by
  constructor
  · decide
  · exact ⟨['r', 'o', 'o', 't', ':', 'U', 's', 'e', 'r', 's'],
      ['D', 'o', 'm', 'a', 'i', 'n', 's', ':', 'd', ':',
        'C', 'a', 't', 'e', 'g', 'o', 'r', 'i', 'e', 's', ':', 'c'], by decide⟩

/-- C5 (amended): `Redis.pattern` filters out empty segments, so for colon-free
segments its key never contains adjacent delimiters; `RedisUser.users_pattern`
joins all seven segments unconditionally, so its key is free of adjacent
delimiters only when every segment (root, contact, domain, category) is
non-empty (and colon-free) — an empty segment yields `"::"` (see the
counterexample). -/
theorem keyPatterns_no_adjacent_delimiters (root domain category partition tel : Str) :
    (':' ∉ root → ':' ∉ domain → ':' ∉ category → ':' ∉ partition →
      ¬ ([':', ':'] <:+: pattern root domain category partition)) ∧
    (root ≠ [] → tel ≠ [] → domain ≠ [] → category ≠ [] →
      ':' ∉ root → ':' ∉ tel → ':' ∉ domain → ':' ∉ category →
      ¬ ([':', ':'] <:+: users_pattern root tel domain category)) := by
  constructor
  · intro h1 h2 h3 h4
    apply noAdjColon_joinSep
    intro x hx
    have hx2 := List.mem_filter.mp hx
    have hxne : x ≠ [] := by simpa using hx2.2
    have hxm : x ∈ [root, domain, category, partition] := hx2.1
    refine ⟨hxne, ?_⟩
    simp only [List.mem_cons, List.not_mem_nil, or_false] at hxm
    rcases hxm with rfl | rfl | rfl | rfl
    · exact h1
    · exact h2
    · exact h3
    · exact h4
  · intro hn1 hn2 hn3 hn4 h1 h2 h3 h4
    apply noAdjColon_joinSep
    intro x hx
    simp only [users_pattern, List.mem_cons, List.not_mem_nil, or_false] at hx
    rcases hx with rfl | rfl | rfl | rfl | rfl | rfl | rfl
    · exact ⟨hn1, h1⟩
    · exact ⟨by decide, by decide⟩
    · exact ⟨hn2, h2⟩
    · exact ⟨by decide, by decide⟩
    · exact ⟨hn3, h3⟩
    · exact ⟨by decide, by decide⟩
    · exact ⟨hn4, h4⟩

/-- Witness for the amended C5 at concrete segments. -/
theorem keyPatterns_no_adjacent_delimiters_witness :
    (¬ ([':', ':'] <:+: pattern ['r'] ['d'] ['c'] [])) ∧
    (¬ ([':', ':'] <:+: users_pattern ['r'] ['5', '5'] ['d'] ['c'])) :=
  ⟨(keyPatterns_no_adjacent_delimiters ['r'] ['d'] ['c'] [] ['5', '5']).1
      (by decide) (by decide) (by decide) (by decide),
    (keyPatterns_no_adjacent_delimiters ['r'] ['d'] ['c'] [] ['5', '5']).2
      (by decide) (by decide) (by decide) (by decide)
      (by decide) (by decide) (by decide) (by decide)⟩

/-! ### The `Formatter.cast` error boundary -/

/-- C6 counterexample: the `cast` wrapper catches only `ParseError`; a
formatting function that raises any other exception propagates it — the
result is an error, never the contained `None`, so a single such failure
aborts item assembly. -/
theorem castWrap_other_exception_propagates :
    castWrap raisesOther 0 = Except.error Exc.other ∧
    ∀ r : Option Nat × List Nat, castWrap raisesOther 0 ≠ Except.ok r := by
  refine ⟨rfl, ?_⟩
  intro r h
  simp [castWrap, raisesOther] at h

/-- C6 (amended): the `cast` boundary contains exactly `ParseError`: a
`ParseError` from the field's formatting step becomes the absent value
`none` together with a logged warning carrying the offending raw value, a
successful format passes through, and any other exception propagates
uncaught.  In particular `PublishDate` on an unparseable date (the date
parser returns `None`) yields the absent value and the warning, and
assembly continues. -/
theorem castWrap_parse_error_contained {α β : Type} (fm : α → Except Exc β) (v : α) :
    (fm v = Except.error Exc.parse → castWrap fm v = Except.ok (none, [v])) ∧
    (∀ x : β, fm v = Except.ok x → castWrap fm v = Except.ok (some x, [])) ∧
    (fm v = Except.error Exc.other → castWrap fm v = Except.error Exc.other) ∧
    (∀ (dp : Str → Option Str) (value : List Str), dp (ravelList [' '] value) = none →
      castWrap (pubDateFmethod dp) value = Except.ok (none, [value])) :=
  ⟨fun h => by simp [castWrap, h],
    fun x h => by simp [castWrap, h],
    fun h => by simp [castWrap, h],
    fun dp value h => by simp [castWrap, pubDateFmethod, h]⟩

/-- Witness for the amended C6: a date parser that fails on everything makes
`PublishDate`'s wrapped format return the absent value plus the warning. -/
theorem castWrap_parse_error_contained_witness :
    pubDateFmethod (fun _ => none) [['a']] = Except.error Exc.parse ∧
    castWrap (pubDateFmethod (fun _ => none)) [['a']] = Except.ok (none, [[['a']]]) :=
  ⟨rfl, (castWrap_parse_error_contained (pubDateFmethod (fun _ => none)) [['a']]).1 rfl⟩

/-! ### `flatten_dict` idempotence -/

theorem map_fst_assocIns {V : Type} (acc : List (Str × V)) (kv : Str × V) :
    (assocIns acc kv).map Prod.fst =
      if acc.any (fun p => decide (p.1 = kv.1)) then acc.map Prod.fst
      else acc.map Prod.fst ++ [kv.1] := by
  rw [assocIns]
  split
  · rw [List.map_map]
    apply List.map_congr_left
    intro p _
    by_cases h : p.1 = kv.1 <;> simp [h]
  · simp

theorem nodup_map_fst_assocIns {V : Type} (acc : List (Str × V)) (kv : Str × V)
    (h : (acc.map Prod.fst).Nodup) : ((assocIns acc kv).map Prod.fst).Nodup := by
  rw [map_fst_assocIns]
  split
  · exact h
  · rename_i hany
    rw [List.nodup_append]
    refine ⟨h, List.nodup_singleton _, ?_⟩
    intro a ha hb
    have ha1 : a = kv.1 := List.mem_singleton.mp hb
    obtain ⟨p, hp, hp1⟩ := List.mem_map.mp ha
    have : acc.any (fun p => decide (p.1 = kv.1)) = true :=
      List.any_eq_true.mpr ⟨p, hp, by simp [hp1, ha1]⟩
    exact hany this

theorem foldl_assocIns_nodup {V : Type} : ∀ (l acc : List (Str × V)),
    ((acc ++ l).map Prod.fst).Nodup → l.foldl assocIns acc = acc ++ l := by
  intro l
  induction l with
  | nil => intro acc _; simp
  | cons kv t ih =>
    intro acc h
    rw [List.foldl_cons]
    have hnotin : kv.1 ∉ acc.map Prod.fst := by
      intro hmem
      rw [List.map_append] at h
      have hdis := (List.nodup_append.mp h).2.2
      exact hdis hmem (List.mem_map.mpr ⟨kv, List.mem_cons_self kv t, rfl⟩)
    have hany : acc.any (fun p => decide (p.1 = kv.1)) = false := by
      cases hb : acc.any (fun p => decide (p.1 = kv.1)) with
      | false => rfl
      | true =>
        obtain ⟨x, hx, hxk⟩ := List.any_eq_true.mp hb
        exact absurd (List.mem_map.mpr ⟨x, hx, by simpa using hxk⟩) hnotin
    have hstep : assocIns acc kv = acc ++ [kv] := by
      rw [assocIns, if_neg (by simp [hany])]
    rw [hstep]
    have hres := ih (acc ++ [kv]) (by simpa using h)
    simpa using hres

theorem nodup_map_fst_foldl {V : Type} : ∀ (l acc : List (Str × V)),
    (acc.map Prod.fst).Nodup → ((l.foldl assocIns acc).map Prod.fst).Nodup := by
  intro l
  induction l with
  | nil => intro acc h; exact h
  | cons kv t ih =>
    intro acc h
    rw [List.foldl_cons]
    exact ih (assocIns acc kv) (nodup_map_fst_assocIns acc kv h)

theorem dictOf_idem {V : Type} (l : List (Str × V)) : dictOf (dictOf l) = dictOf l := by
  rw [dictOf]
  have hnd : ((dictOf l).map Prod.fst).Nodup :=
    nodup_map_fst_foldl l [] (by simp)
  have := foldl_assocIns_nodup (dictOf l) [] (by simpa using hnd)
  simpa using this

theorem flatEntries_asPyDict (sep : Str) : ∀ (l : List (Str × Str)),
    flatEntries sep (asPyDict l) [] = l := by
  intro l
  induction l with
  | nil => simp [asPyDict, flatEntries]
  | cons kv t ih =>
    simp [asPyDict, flatEntries, flatVal] at ih ⊢
    exact ih

/-- C8: feeding `flatten_dict`'s own flat output back through `flatten_dict`
is the identity: `flatten(flatten(m)) == flatten(m)`; in particular
flattening an already-flat mapping is a no-op. -/
theorem flatten_dict_idempotent (sep : Str) (d : List (Str × PyVal)) :
    flatten_dict sep (asPyDict (flatten_dict sep d)) = flatten_dict sep d := by
  rw [flatten_dict, flatEntries_asPyDict sep (flatten_dict sep d), flatten_dict,
    dictOf_idem]

/-! ### Idempotence of `ravel` -/

/-- No two adjacent whitespace characters. -/
def noTwoWS (a b : Char) : Prop := ¬(isPySpace a = true ∧ isPySpace b = true)

theorem collapse_mem_space : ∀ l : Str,
    (∀ c ∈ collapseWS l, isPySpace c = true → c = ' ') ∧
    (∀ c ∈ collapseAfterWS l, isPySpace c = true → c = ' ') := by
  intro l
  induction l with
  | nil => constructor <;> simp [collapseWS, collapseAfterWS]
  | cons a t ih =>
    constructor
    · intro c hc hsp
      rw [collapseWS] at hc
      by_cases ha : isPySpace a = true
      · rw [if_pos ha] at hc
        rcases List.mem_cons.mp hc with h | h
        · exact h
        · exact ih.2 c h hsp
      · rw [if_neg ha] at hc
        rcases List.mem_cons.mp hc with h | h
        · rw [h] at hsp
          exact absurd hsp ha
        · exact ih.1 c h hsp
    · intro c hc hsp
      rw [collapseAfterWS] at hc
      by_cases ha : isPySpace a = true
      · rw [if_pos ha] at hc
        exact ih.2 c hc hsp
      · rw [if_neg ha] at hc
        rcases List.mem_cons.mp hc with h | h
        · rw [h] at hsp
          exact absurd hsp ha
        · exact ih.1 c h hsp

theorem collapse_chain : ∀ l : Str,
    List.Chain' noTwoWS (collapseWS l) ∧ List.Chain' noTwoWS (collapseAfterWS l) ∧
    (∀ h ∈ (collapseAfterWS l).head?, ¬ isPySpace h = true) := by
  intro l
  induction l with
  | nil => refine ⟨?_, ?_, ?_⟩ <;> simp [collapseWS, collapseAfterWS]
  | cons a t ih =>
    obtain ⟨ihW, ihA, ihH⟩ := ih
    refine ⟨?_, ?_, ?_⟩
    · rw [collapseWS]
      by_cases ha : isPySpace a = true
      · rw [if_pos ha, List.chain'_cons']
        exact ⟨fun h hh hc => ihH h hh hc.2, ihA⟩
      · rw [if_neg ha, List.chain'_cons']
        exact ⟨fun h _ hc => ha hc.1, ihW⟩
    · rw [collapseAfterWS]
      by_cases ha : isPySpace a = true
      · rw [if_pos ha]
        exact ihA
      · rw [if_neg ha, List.chain'_cons']
        exact ⟨fun h _ hc => ha hc.1, ihW⟩
    · rw [collapseAfterWS]
      by_cases ha : isPySpace a = true
      · rw [if_pos ha]
        exact ihH
      · rw [if_neg ha]
        intro h hh
        simp at hh
        rw [hh] at ha
        exact ha

theorem collapse_id : ∀ l : Str, (∀ c ∈ l, isPySpace c = true → c = ' ') →
    List.Chain' noTwoWS l → collapseWS l = l := by
  intro l
  induction l with
  | nil => intro _ _; rfl
  | cons a t ih =>
    intro hmem hch
    have hcht : List.Chain' noTwoWS t := hch.tail
    have hmemt : ∀ c ∈ t, isPySpace c = true → c = ' ' :=
      fun c hc => hmem c (List.mem_cons_of_mem _ hc)
    have ihT := ih hmemt hcht
    by_cases ha : isPySpace a = true
    · have haSp : a = ' ' := hmem a (List.mem_cons_self a t) ha
      rw [collapseWS, if_pos ha, haSp]
      congr 1
      cases t with
      | nil => rfl
      | cons b t' =>
        have hb : ¬ isPySpace b = true := by
          rw [List.chain'_cons'] at hch
          intro hbs
          exact hch.1 b rfl ⟨ha, hbs⟩
        rw [collapseWS, if_neg hb] at ihT
        rw [collapseAfterWS, if_neg hb]
        exact ihT
    · rw [collapseWS, if_neg ha, ihT]

theorem dropWhile_of_head_false (p : Char → Bool) (l : Str)
    (h : ∀ x ∈ l.head?, p x = false) : l.dropWhile p = l := by
  cases l with
  | nil => rfl
  | cons c t =>
    have hc := h c rfl
    rw [List.dropWhile_cons, hc]
    simp

theorem stripPy_idem (l : Str) : stripPy (stripPy l) = stripPy l := by
  cases hb : (l.dropWhile isPySpace).reverse.dropWhile isPySpace with
  | nil =>
    have hstrip : stripPy l = [] := by rw [stripPy, hb]; rfl
    rw [hstrip]
    rfl
  | cons c t =>
    have hbne : (l.dropWhile isPySpace).reverse.dropWhile isPySpace ≠ [] := by
      rw [hb]; simp
    have hstrip : stripPy l =
        ((l.dropWhile isPySpace).reverse.dropWhile isPySpace).reverse := rfl
    have hheadA : ∀ x ∈ (l.dropWhile isPySpace).head?, isPySpace x = false := by
      intro x hx
      have := List.head?_dropWhile_not isPySpace l
      rw [hx] at this
      simpa using this
    have hlastB : ∀ x ∈ ((l.dropWhile isPySpace).reverse.dropWhile isPySpace).getLast?,
        isPySpace x = false := by
      intro x hx
      obtain ⟨u, hu⟩ := List.dropWhile_suffix
        (l := (l.dropWhile isPySpace).reverse) isPySpace
      have h1 : ((l.dropWhile isPySpace).reverse.dropWhile isPySpace).getLast? =
          (l.dropWhile isPySpace).reverse.getLast? := by
        conv_rhs => rw [← hu]
        rw [List.getLast?_append_of_ne_nil _ hbne]
      rw [h1, List.getLast?_reverse] at hx
      exact hheadA x hx
    have hheadBrev : ∀ x ∈ ((l.dropWhile isPySpace).reverse.dropWhile
        isPySpace).reverse.head?, isPySpace x = false := by
      intro x hx
      rw [List.head?_reverse] at hx
      exact hlastB x hx
    have hheadB : ∀ x ∈ ((l.dropWhile isPySpace).reverse.dropWhile isPySpace).head?,
        isPySpace x = false := by
      intro x hx
      have := List.head?_dropWhile_not isPySpace (l.dropWhile isPySpace).reverse
      rw [hx] at this
      simpa using this
    rw [hstrip, stripPy, dropWhile_of_head_false _ _ hheadBrev, List.reverse_reverse,
      dropWhile_of_head_false _ _ hheadB]

theorem chain'_noTwoWS_reverse {l : Str} (h : List.Chain' noTwoWS l) :
    List.Chain' noTwoWS l.reverse := by
  rw [List.chain'_reverse]
  exact h.imp (fun a b hab hc => hab ⟨hc.2, hc.1⟩)

theorem chain'_stripPy {l : Str} (h : List.Chain' noTwoWS l) :
    List.Chain' noTwoWS (stripPy l) := by
  have h1 : List.Chain' noTwoWS (l.dropWhile isPySpace) :=
    h.suffix (List.dropWhile_suffix isPySpace)
  have h2 := chain'_noTwoWS_reverse h1
  have h3 : List.Chain' noTwoWS ((l.dropWhile isPySpace).reverse.dropWhile isPySpace) :=
    h2.suffix (List.dropWhile_suffix isPySpace)
  exact chain'_noTwoWS_reverse h3

theorem mem_of_mem_stripPy {l : Str} {x : Char} (h : x ∈ stripPy l) : x ∈ l := by
  rw [stripPy, List.mem_reverse] at h
  have h1 : x ∈ (l.dropWhile isPySpace).reverse :=
    (List.dropWhile_suffix isPySpace).sublist.subset h
  rw [List.mem_reverse] at h1
  exact (List.dropWhile_suffix isPySpace).sublist.subset h1

/-- C9: `ravel` is idempotent — re-normalising the already flattened and
normalised string changes nothing, both for a string input and for a
list/set input (whose result is a string, so the second application takes
the string path). -/
theorem ravel_idempotent :
    (∀ s : Str, ravelStr (ravelStr s) = ravelStr s) ∧
    (∀ (sep : Str) (l : List Str), ravelStr (ravelList sep l) = ravelList sep l) := by
  have hmain : ∀ s : Str, ravelStr (ravelStr s) = ravelStr s := by
    intro s
    have hyW := (collapse_mem_space (replaceNl s)).1
    have hyC := (collapse_chain (replaceNl s)).1
    have houtW : ∀ c ∈ stripPy (collapseWS (replaceNl s)), isPySpace c = true → c = ' ' :=
      fun c hc => hyW c (mem_of_mem_stripPy hc)
    have houtC := chain'_stripPy hyC
    have h1 : replaceNl (stripPy (collapseWS (replaceNl s))) =
        stripPy (collapseWS (replaceNl s)) := by
      rw [replaceNl]
      have hpt : ∀ c ∈ stripPy (collapseWS (replaceNl s)),
          (if c = '\n' then ' ' else c) = id c := by
        intro c hc
        by_cases hcn : c = '\n'
        · have hsp := houtW c hc (by rw [hcn]; decide)
          rw [hcn] at hsp
          exact absurd hsp (by decide)
        · rw [if_neg hcn]
          rfl
      rw [List.map_congr_left hpt, List.map_id]
    have h2 : collapseWS (stripPy (collapseWS (replaceNl s))) =
        stripPy (collapseWS (replaceNl s)) := collapse_id _ houtW houtC
    show stripPy (collapseWS (replaceNl (stripPy (collapseWS (replaceNl s))))) =
      stripPy (collapseWS (replaceNl s))
    rw [h1, h2, stripPy_idem]
  exact ⟨hmain, fun sep l => hmain (joinSep sep (pySet l))⟩

/-! ### The Contact field -/

/-- C7 counterexample: on the input `["+1 555-123-45-67"]` the Contact
formatter returns `"551234567"` — the normalised **capture group** (the
2-3-2-2 digit block): `re.findall` with one group returns group captures,
so the optional `+`/country-code prefix and the digit the greedy `\d{0,3}`
consumed (`"+1 5"`) are dropped, and the result does not cover the whole
matched phone substring `"555-123-45-67"` (no `"555"` appears in it). -/
theorem contactFmethod_drops_matched_prefix :
    contactFmethod
        [['+', '1', ' ', '5', '5', '5', '-', '1', '2', '3', '-', '4', '5', '-', '6', '7']] =
      ['5', '5', '1', '2', '3', '4', '5', '6', '7'] ∧
    ¬ (['5', '5', '5'] <:+:
      contactFmethod
        [['+', '1', ' ', '5', '5', '5', '-', '1', '2', '3', '-', '4', '5', '-', '6', '7']]) := by
  constructor
  · decide
  · decide

/-- C7 (amended): the Contact formatter flattens the raw values with
`ravel`'s default separator `' '` (not `';'`), collects the phone pattern's
**group captures** (the 2-3-2-2 digit blocks, dropping the optional leading
`+` and up-to-3-digit prefix), deduplicates, strips whitespace/hyphen/plus,
and joins with `';'`.  Every character of the result is free of whitespace,
hyphens and plus signs, and `["+1 555-123-45-67"]` yields the normalised
captured group `"551234567"`. -/
theorem contactFmethod_normalizes_captured_group :
    (∀ (value : List Str) (c : Char), c ∈ contactFmethod value →
      isPySpace c = false ∧ c ≠ '-' ∧ c ≠ '+') ∧
    contactFmethod
        [['+', '1', ' ', '5', '5', '5', '-', '1', '2', '3', '-', '4', '5', '-', '6', '7']] =
      ['5', '5', '1', '2', '3', '4', '5', '6', '7'] := by
  constructor
  · intro value c hc
    have h := (List.mem_filter.mp hc).2
    simp only [Bool.not_eq_true', Bool.or_eq_false_iff, decide_eq_false_iff_not] at h
    exact ⟨h.1.1, h.1.2, h.2⟩
  · decide

/-- Witness for the amended C7: the first result character of the concrete
run is clean. -/
theorem contactFmethod_normalizes_captured_group_witness :
    '5' ∈ contactFmethod
        [['+', '1', ' ', '5', '5', '5', '-', '1', '2', '3', '-', '4', '5', '-', '6', '7']] ∧
    (isPySpace '5' = false ∧ '5' ≠ '-' ∧ '5' ≠ '+') :=
  ⟨by decide,
    contactFmethod_normalizes_captured_group.1
      [['+', '1', ' ', '5', '5', '5', '-', '1', '2', '3', '-', '4', '5', '-', '6', '7']]
      '5' (by decide)⟩

/-! ### The empty-entry edge case of the identity lookup -/

theorem mem_get_tel_parent_mono {root t : Str} {s : List Str} {k : Str} (h : k ∈ s) :
    k ∈ (get_tel_parent root s t).1 := by
  cases hks : keysIds root s t with
  | nil =>
    simp only [get_tel_parent, hks, List.isEmpty_nil, if_true, set_parent]
    exact mem_rset_of_mem _ h
  | cons k0 rest => simp [get_tel_parent, hks, h]

theorem mem_tel_parents_mono {root : Str} :
    ∀ (tels : List Str) (s : List Str) (k : Str), k ∈ s →
      k ∈ (tel_parents root s tels).1 := by
  intro tels
  induction tels with
  | nil => intro s k h; exact h
  | cons t ts ih =>
    intro s k h
    rw [tel_parents]
    exact ih _ k (mem_get_tel_parent_mono h)

theorem keysIds_nil_get_preserved {root t : Str} (ht : ':' ∉ t) (ht0 : t ≠ [])
    {s : List Str} (hkeys : keysIds root s [] = []) :
    keysIds root (get_tel_parent root s t).1 [] = [] := by
  cases hks : keysIds root s t with
  | nil =>
    simp only [get_tel_parent, hks, List.isEmpty_nil, if_true, set_parent]
    rw [rset]
    by_cases hin : parent_tel_pattern root t t ∈ s
    · rw [if_pos hin]
      exact hkeys
    · rw [if_neg hin]
      have hsplit : keysIds root (s ++ [parent_tel_pattern root t t]) [] =
          keysIds root s [] ++ keysIds root [parent_tel_pattern root t t] [] := by
        simp [keysIds, List.filter_append]
      rw [hsplit, hkeys]
      have hglob : globStar (root ++ idsSeg) (':' :: ([] : Str))
          (parent_tel_pattern root t t) = false :=
        globStar_ptp_ne ht (by simp) (fun hh => ht0 hh.symm)
      simp [keysIds, List.filter, hglob]
  | cons k0 rest => simp [get_tel_parent, hks, hkeys]

theorem tel_parents_creates_empty_pointer {root : Str} :
    ∀ (tels : List Str) (s : List Str), (∀ t ∈ tels, ':' ∉ t) →
      keysIds root s [] = [] → [] ∈ tels →
      parent_tel_pattern root [] [] ∈ (tel_parents root s tels).1 := by
  intro tels
  induction tels with
  | nil => intro s _ _ hmem; exact absurd hmem (List.not_mem_nil _)
  | cons t ts ih =>
    intro s htels hkeys hmem
    rw [tel_parents]
    by_cases ht0 : t = []
    · subst ht0
      have hnotin : parent_tel_pattern root [] [] ∉ s := by
        intro hin
        have hmemf : parent_tel_pattern root [] [] ∈ keysIds root s [] :=
          List.mem_filter.mpr ⟨hin, globStar_ptp_self (by simp)⟩
        rw [hkeys] at hmemf
        exact absurd hmemf (List.not_mem_nil _)
      have hget : (get_tel_parent root s []).1 = s ++ [parent_tel_pattern root [] []] := by
        simp [get_tel_parent, hkeys, set_parent, rset, hnotin]
      rw [hget]
      exact mem_tel_parents_mono ts _ _ (List.mem_append.mpr (Or.inr (by simp)))
    · have hmem' : [] ∈ ts := by
        rcases List.mem_cons.mp hmem with h | h
        · exact absurd h.symm ht0
        · exact h
      have ht := htels t (List.mem_cons_self t ts)
      exact ih _ (fun u hu => htels u (List.mem_cons_of_mem _ hu))
        (keysIds_nil_get_preserved ht ht0 hkeys) hmem'

theorem merge_parents_keeps_empty_child {root canon : Str} (hcanon : ':' ∉ canon) :
    ∀ (zl : List (Str × List Str)) (s : List Str),
      (∀ pr ∈ zl, ':' ∉ pr.1 ∧ ∃ p, ':' ∉ p ∧ pr.2 = [parent_tel_pattern root pr.1 p]) →
      (∃ q, ':' ∉ q ∧ parent_tel_pattern root [] q ∈ s) →
      ∃ q, ':' ∉ q ∧ parent_tel_pattern root [] q ∈ merge_parents root canon s zl := by
  intro zl
  induction zl with
  | nil => intro s _ hex; exact hex
  | cons pr rest ih =>
    obtain ⟨t, old⟩ := pr
    intro s hinv hex
    obtain ⟨ht, p, hp, hold⟩ := hinv (t, old) (List.mem_cons_self _ _)
    dsimp only at ht hold
    subst hold
    rw [merge_parents]
    have hupd : (update_tel_parent root s t [parent_tel_pattern root t p] canon).1 =
        rset (rdel s (parent_tel_pattern root t p)) (parent_tel_pattern root t canon) := by
      simp [update_tel_parent, set_parent]
    rw [hupd]
    apply ih
    · exact fun pr' hpr' => hinv pr' (List.mem_cons_of_mem _ hpr')
    · by_cases ht0 : t = []
      · subst ht0
        exact ⟨canon, hcanon, mem_rset_self _ _⟩
      · obtain ⟨q, hq, hqmem⟩ := hex
        have hne : parent_tel_pattern root [] q ≠ parent_tel_pattern root t p := by
          intro hh
          exact ht0 ((ptp_inj (by simp) ht hh).2).symm
        exact ⟨q, hq, mem_rset_of_mem _ (mem_rdel_of_mem hqmem hne)⟩

/-- C10: the `'Unknown'` guard inspects only the first semicolon-split entry,
so for **every** contact string with a non-empty first entry, a later empty
entry, and colon-free (phone-shaped) entries, run against any well-formed
store holding no pointer for the empty child, `tel_id` invokes the parent
lookup on the empty string too: the lookup phase creates the degenerate
identity record `root:Ids::` (parent and child segments both empty) instead
of skipping it, and the store `tel_id` leaves behind still contains an
identity pointer for the empty child. -/
theorem telId_trailing_empty_entry_creates_empty_pointer (root : Str) (s : List Str)
    (tel : Str) (hr : ':' ∉ root) (htel : ':' ∉ tel)
    (hS : Structured root s) (hM : AtMostOne root s)
    (h0 : (splitOnC ';' tel).headD [] ≠ [])
    (hmem : [] ∈ splitOnC ';' tel)
    (hkeys : keysIds root s [] = []) :
    parent_tel_pattern root [] [] ∈ (tel_parents root s (splitOnC ';' tel)).1 ∧
    ∃ q, ':' ∉ q ∧ parent_tel_pattern root [] q ∈ (tel_id root s tel).1 := by
  have htels : ∀ t ∈ splitOnC ';' tel, ':' ∉ t :=
    fun t htm hx => htel (mem_of_mem_splitOnC ';' htm ':' hx)
  have hcreate := tel_parents_creates_empty_pointer (splitOnC ';' tel) s htels hkeys hmem
  refine ⟨hcreate, ?_⟩
  rw [tel_id, tel_id_tels, if_neg h0]
  cases hgp : tel_parents root s (splitOnC ';' tel) with
  | mk s₁ ps =>
    obtain ⟨hS₁, hM₁, hmono, hF⟩ :=
      tel_parents_spec (splitOnC ';' tel) s s₁ ps hgp hS hM htels
    have hne : splitOnC ';' tel ≠ [] := splitOnC_ne_nil ';' tel
    obtain ⟨htL, pL, hpL, holdL, hmemL⟩ :=
      forall₂_lastD _ ([] : Str) ([] : List Str) hF hne
    simp only [hgp]
    have hcanon : (splitOnC ':' ((lastD [] ps).headD [])).getD 2 [] = pL := by
      rw [holdL]
      have hsp := split_ptp (c := lastD [] (splitOnC ';' tel)) hr hpL htL
      simp [hsp]
    rw [hcanon]
    apply merge_parents_keeps_empty_child hpL
    · intro pr hpr
      have hR := forall₂_zip_dropLast _ hF pr.1 pr.2 (by simpa using hpr)
      obtain ⟨ht', p', hp', hold', _⟩ := hR
      exact ⟨ht', p', hp', hold'⟩
    · rw [hgp] at hcreate
      exact ⟨[], by simp, hcreate⟩

/-- Witness for C10 at `root = "root"`, the empty store, `tel = "123;"`. -/
theorem telId_trailing_empty_entry_creates_empty_pointer_witness :
    ':' ∉ (['r', 'o', 'o', 't'] : Str) ∧ ':' ∉ (['1', '2', '3', ';'] : Str) ∧
    Structured ['r', 'o', 'o', 't'] [] ∧ AtMostOne ['r', 'o', 'o', 't'] [] ∧
    (splitOnC ';' ['1', '2', '3', ';']).headD [] ≠ [] ∧
    ([] : Str) ∈ splitOnC ';' ['1', '2', '3', ';'] ∧
    keysIds ['r', 'o', 'o', 't'] [] [] = [] ∧
    (parent_tel_pattern ['r', 'o', 'o', 't'] [] [] ∈
        (tel_parents ['r', 'o', 'o', 't'] [] (splitOnC ';' ['1', '2', '3', ';'])).1 ∧
      ∃ q, ':' ∉ q ∧ parent_tel_pattern ['r', 'o', 'o', 't'] [] q ∈
        (tel_id ['r', 'o', 'o', 't'] [] ['1', '2', '3', ';']).1) :=
  ⟨by decide, by decide, fun k hk => absurd hk (List.not_mem_nil k),
    fun t _ => by simp [keysIds], by decide, by decide, rfl,
    telId_trailing_empty_entry_creates_empty_pointer ['r', 'o', 'o', 't'] []
      ['1', '2', '3', ';'] (by decide) (by decide)
      (fun k hk => absurd hk (List.not_mem_nil k)) (fun t _ => by simp [keysIds])
      (by decide) (by decide) rfl⟩
